import Mathlib

/-!
# Verification of `src/crypto/signing.ts` (`ExtensionSigner`)

Shallow embedding of the content-addressing and signing pipeline of the
`@haexhub/sdk` repository.  File paths, file contents, manifest keys and
manifest string values are all modelled as `List Nat` (the sequence of
UTF-16 code units / bytes the JavaScript runtime manipulates).  SHA-256 is
implemented directly (FIPS 180-4), mirroring `webcrypto.subtle.digest`.
-/

/-- UTF code units of a string literal, used to write byte-string constants. -/
def codes (s : String) : List Nat := s.data.map Char.toNat

/-! ## Path ordering

`hashDirectory` sorts the file list with JavaScript's default
`Array.prototype.sort`, which compares strings by their code-unit
sequences, lexicographically.  `pathLeb` is that comparison. -/

/-- Lexicographic comparison of code-unit sequences, as performed by the
default JavaScript string sort used in `hashDirectory`. -/
def pathLeb : List Nat → List Nat → Bool
  | [], _ => true
  | _ :: _, [] => false
  | a :: as, b :: bs => if a < b then true else if b < a then false else pathLeb as bs

theorem pathLeb_refl (l : List Nat) : pathLeb l l = true := by
  induction l with
  | nil => rfl
  | cons a as ih => simp [pathLeb, ih]

theorem pathLeb_total (a b : List Nat) : pathLeb a b = true ∨ pathLeb b a = true := by
  induction a generalizing b with
  | nil => exact .inl rfl
  | cons x xs ih =>
    cases b with
    | nil => exact .inr rfl
    | cons y ys =>
      by_cases hxy : x < y
      · exact .inl (by simp [pathLeb, hxy])
      · by_cases hyx : y < x
        · exact .inr (by simp [pathLeb, hyx, Nat.lt_asymm hyx])
        · have hE : x = y := Nat.le_antisymm (Nat.le_of_not_lt hyx) (Nat.le_of_not_lt hxy)
          subst hE
          rcases ih ys with h | h
          · exact .inl (by simp [pathLeb, h])
          · exact .inr (by simp [pathLeb, h])

theorem pathLeb_antisymm {a b : List Nat} (h₁ : pathLeb a b = true)
    (h₂ : pathLeb b a = true) : a = b := by
  induction a generalizing b with
  | nil =>
    cases b with
    | nil => rfl
    | cons y ys => simp [pathLeb] at h₂
  | cons x xs ih =>
    cases b with
    | nil => simp [pathLeb] at h₁
    | cons y ys =>
      by_cases hxy : x < y
      · simp [pathLeb, hxy, Nat.lt_asymm hxy] at h₂
      · by_cases hyx : y < x
        · simp [pathLeb, hyx, Nat.lt_asymm hyx] at h₁
        · have hE : x = y := Nat.le_antisymm (Nat.le_of_not_lt hyx) (Nat.le_of_not_lt hxy)
          subst hE
          simp only [pathLeb, lt_irrefl, if_false] at h₁ h₂
          rw [ih h₁ h₂]

theorem pathLeb_trans {a b c : List Nat} (h₁ : pathLeb a b = true)
    (h₂ : pathLeb b c = true) : pathLeb a c = true := by
  induction a generalizing b c with
  | nil => rfl
  | cons x xs ih =>
    cases b with
    | nil => simp [pathLeb] at h₁
    | cons y ys =>
      cases c with
      | nil => simp [pathLeb] at h₂
      | cons z zs =>
        by_cases hxy : x < y
        · by_cases hyz : y < z
          · simp [pathLeb, Nat.lt_trans hxy hyz]
          · by_cases hzy : z < y
            · simp [pathLeb, hyz, hzy] at h₂
            · have : y = z := Nat.le_antisymm (Nat.le_of_not_lt hzy) (Nat.le_of_not_lt hyz)
              subst this
              simp [pathLeb, hxy]
        · by_cases hyx : y < x
          · simp [pathLeb, hyx, Nat.lt_asymm hyx] at h₁
          · have hE : x = y := Nat.le_antisymm (Nat.le_of_not_lt hyx) (Nat.le_of_not_lt hxy)
            subst hE
            simp only [pathLeb, lt_irrefl, if_false] at h₁
            by_cases hyz : x < z
            · simp [pathLeb, hyz]
            · by_cases hzy : z < x
              · simp [pathLeb, hyz, hzy] at h₂
              · have : x = z := Nat.le_antisymm (Nat.le_of_not_lt hzy) (Nat.le_of_not_lt hyz)
                subst this
                simp only [pathLeb, lt_irrefl, if_false] at h₂ ⊢
                exact ih h₁ h₂

/-! ## SHA-256 (FIPS 180-4), as computed by `webcrypto.subtle.digest("SHA-256", ·)` -/

/-- Truncation to a 32-bit word. -/
def w32 (n : Nat) : Nat := n % 4294967296

/-- 32-bit right rotation. -/
def rotr (n x : Nat) : Nat := w32 ((x >>> n) ||| (x <<< (32 - n)))

def bigSigma0 (x : Nat) : Nat := rotr 2 x ^^^ rotr 13 x ^^^ rotr 22 x
def bigSigma1 (x : Nat) : Nat := rotr 6 x ^^^ rotr 11 x ^^^ rotr 25 x
def smallSigma0 (x : Nat) : Nat := rotr 7 x ^^^ rotr 18 x ^^^ (x >>> 3)
def smallSigma1 (x : Nat) : Nat := rotr 17 x ^^^ rotr 19 x ^^^ (x >>> 10)
def chFn (e f g : Nat) : Nat := (e &&& f) ^^^ ((e ^^^ 4294967295) &&& g)
def majFn (a b c : Nat) : Nat := (a &&& b) ^^^ (a &&& c) ^^^ (b &&& c)

/-- The 64 SHA-256 round constants. -/
def kConst : List Nat :=
  [1116352408, 1899447441, 3049323471, 3921009573, 961987163, 1508970993,
   2453635748, 2870763221, 3624381080, 310598401, 607225278, 1426881987,
   1925078388, 2162078206, 2614888103, 3248222580, 3835390401, 4022224774,
   264347078, 604807628, 770255983, 1249150122, 1555081692, 1996064986,
   2554220882, 2821834349, 2952996808, 3210313671, 3336571891, 3584528711,
   113926993, 338241895, 666307205, 773529912, 1294757372, 1396182291,
   1695183700, 1986661051, 2177026350, 2456956037, 2730485921, 2820302411,
   3259730800, 3345764771, 3516065817, 3600352804, 4094571909, 275423344,
   430227734, 506948616, 659060556, 883997877, 958139571, 1322822218,
   1537002063, 1747873779, 1955562222, 2024104815, 2227730452, 2361852424,
   2428436474, 2756734187, 3204031479, 3329325298]

/-- The SHA-256 initial hash state. -/
def hInit : List Nat :=
  [1779033703, 3144134277, 1013904242, 2773480762, 1359893119,
   2600822924, 528734635, 1541459225]

/-- 64-bit big-endian byte encoding (for the message-length trailer). -/
def u64be (n : Nat) : List Nat :=
  [n >>> 56 % 256, n >>> 48 % 256, n >>> 40 % 256, n >>> 32 % 256,
   n >>> 24 % 256, n >>> 16 % 256, n >>> 8 % 256, n % 256]

/-- FIPS 180-4 padding: append `0x80`, zeros to 56 mod 64, then the bit length. -/
def padMessage (msg : List Nat) : List Nat :=
  msg ++ 128 :: List.replicate ((120 - (msg.length + 1) % 64) % 64) 0 ++ u64be (8 * msg.length)

/-- Big-endian packing of bytes into 32-bit words. -/
def toWords : List Nat → List Nat
  | a :: b :: c :: d :: rest => (((a * 256 + b) * 256 + c) * 256 + d) :: toWords rest
  | _ => []

/-- Split a word list into 16-word blocks. -/
def toBlocks : List Nat → List (List Nat)
  | w0 :: w1 :: w2 :: w3 :: w4 :: w5 :: w6 :: w7 ::
    w8 :: w9 :: w10 :: w11 :: w12 :: w13 :: w14 :: w15 :: rest =>
      [w0, w1, w2, w3, w4, w5, w6, w7, w8, w9, w10, w11, w12, w13, w14, w15] :: toBlocks rest
  | _ => []

/-- Message-schedule extension; `acc` holds the words produced so far, newest first. -/
def extendW : Nat → List Nat → List Nat
  | 0, acc => acc
  | n + 1, acc =>
      extendW n (w32 (smallSigma1 (acc.getD 1 0) + acc.getD 6 0 +
        smallSigma0 (acc.getD 14 0) + acc.getD 15 0) :: acc)

/-- The 64-word message schedule of one block. -/
def schedule (block : List Nat) : List Nat := (extendW 48 block.reverse).reverse

/-- One SHA-256 round on the 8-word working state. -/
def compressStep (st : List Nat) (kw : Nat × Nat) : List Nat :=
  match st with
  | [a, b, c, d, e, f, g, h] =>
      let t1 := w32 (h + bigSigma1 e + chFn e f g + kw.1 + kw.2)
      let t2 := w32 (bigSigma0 a + majFn a b c)
      [w32 (t1 + t2), a, b, c, w32 (d + t1), e, f, g]
  | other => other

/-- Process one 16-word block. -/
def compressBlock (st block : List Nat) : List Nat :=
  ((kConst.zip (schedule block)).foldl compressStep st).zip st |>.map (fun p => w32 (p.1 + p.2))

/-- SHA-256 digest of a byte sequence, as a list of 32 bytes. -/
def sha256 (msg : List Nat) : List Nat :=
  ((toBlocks (toWords (padMessage msg))).foldl compressBlock hInit).map
    (fun w => [w >>> 24 % 256, w >>> 16 % 256, w >>> 8 % 256, w % 256]) |>.flatten

/-- Validation of the SHA-256 implementation on the standard empty-message test vector. -/
theorem sha256_nil_vector :
    sha256 [] =
      [0xe3, 0xb0, 0xc4, 0x42, 0x98, 0xfc, 0x1c, 0x14, 0x9a, 0xfb, 0xf4, 0xc8,
       0x99, 0x6f, 0xb9, 0x24, 0x27, 0xae, 0x41, 0xe4, 0x64, 0x9b, 0x93, 0x4c,
       0xa4, 0x95, 0x99, 0x1b, 0x78, 0x52, 0xb8, 0x55] := by decide

/-- Validation of the SHA-256 implementation on the standard "abc" test vector. -/
theorem sha256_abc_vector :
    sha256 (codes "abc") =
      [0xba, 0x78, 0x16, 0xbf, 0x8f, 0x01, 0xcf, 0xea, 0x41, 0x41, 0x40, 0xde,
       0x5d, 0xae, 0x22, 0x23, 0xb0, 0x03, 0x61, 0xa3, 0x96, 0x17, 0x7a, 0x9c,
       0xb4, 0x10, 0xff, 0x61, 0xf2, 0x00, 0x15, 0xad] := by decide

/-! ## `hashDirectory`

`hashDirectory(dirPath)` (signing.ts lines 46-64) enumerates every regular
file under the root (`getAllFiles`, lines 265-277, in filesystem
enumeration order), sorts the path list with `files.sort()`, reads each
file's bytes in that order, concatenates all contents with no delimiters
(`Buffer.concat`), and digests the concatenation with SHA-256.  A directory
is modelled as the list of its `(path, content)` pairs in enumeration
order; paths are the full path strings `hashDirectory` sorts. -/

/-- Ordering of directory entries used by `files.sort()`: compare the path
components only. -/
def kvLe {α : Type} (a b : List Nat × α) : Prop := pathLeb a.1 b.1 = true

instance kvLe.instDecRel {α : Type} : DecidableRel (@kvLe α) :=
  fun a b => inferInstanceAs (Decidable (pathLeb a.1 b.1 = true))

instance kvLe.instTotal {α : Type} : IsTotal (List Nat × α) kvLe :=
  ⟨fun a b => pathLeb_total a.1 b.1⟩

instance kvLe.instTrans {α : Type} : IsTrans (List Nat × α) kvLe :=
  ⟨fun _ _ _ h₁ h₂ => pathLeb_trans h₁ h₂⟩

/-- `const sortedFiles = files.sort();` -/
def sortFiles {α : Type} (l : List (List Nat × α)) : List (List Nat × α) :=
  List.insertionSort kvLe l

/-- The byte sequence fed to SHA-256: contents of all files, concatenated
in sorted-path order with no delimiters. -/
def hashInput (files : List (List Nat × List Nat)) : List Nat :=
  ((sortFiles files).map Prod.snd).flatten

/-- `hashDirectory`: SHA-256 over the concatenated, path-sorted file contents. -/
def hashDirectory (files : List (List Nat × List Nat)) : List Nat :=
  sha256 (hashInput files)

/-- Two sorted lists of keyed entries that are permutations of each other and
have no duplicate keys are equal. -/
theorem sorted_perm_nodupKeys_eq {α : Type} :
    ∀ {l₁ l₂ : List (List Nat × α)}, l₁.Perm l₂ → l₁.Sorted kvLe → l₂.Sorted kvLe →
      (l₁.map Prod.fst).Nodup → l₁ = l₂
  | [], l₂, hp, _, _, _ => (hp.nil_eq).symm ▸ rfl
  | a :: t₁, l₂, hp, hs₁, hs₂, hnd => by
    cases l₂ with
    | nil => exact absurd hp.symm (by simp)
    | cons b t₂ =>
      have hab : a = b := by
        by_contra hne
        have ha' : a ∈ t₂ :=
          (List.mem_cons.mp (hp.subset (List.mem_cons_self a t₁))).resolve_left hne
        have hb' : b ∈ t₁ :=
          (List.mem_cons.mp (hp.symm.subset (List.mem_cons_self b t₂))).resolve_left
            (fun h => hne h.symm)
        have h₁ : kvLe a b := (List.sorted_cons.mp hs₁).1 b hb'
        have h₂ : kvLe b a := (List.sorted_cons.mp hs₂).1 a ha'
        have hkey : a.1 = b.1 := pathLeb_antisymm h₁ h₂
        have : a.1 ∈ t₁.map Prod.fst := hkey ▸ List.mem_map_of_mem Prod.fst hb'
        simp only [List.map_cons, List.nodup_cons] at hnd
        exact hnd.1 this
      subst hab
      have := sorted_perm_nodupKeys_eq hp.cons_inv (List.sorted_cons.mp hs₁).2
        (List.sorted_cons.mp hs₂).2 (by simpa using hnd.of_cons)
      rw [this]

/-- Replacing the payload of one entry (its key unchanged) preserves
`kvLe`-sortedness. -/
theorem pairwise_kvLe_replace {α : Type} {s₁ s₂ : List (List Nat × α)} {p : List Nat}
    {c c' : α} (h : List.Pairwise kvLe (s₁ ++ (p, c) :: s₂)) :
    List.Pairwise kvLe (s₁ ++ (p, c') :: s₂) := by
  rw [List.pairwise_append] at h ⊢
  obtain ⟨h₁, h₂, h₃⟩ := h
  rw [List.pairwise_cons] at h₂
  refine ⟨h₁, ?_, ?_⟩
  · rw [List.pairwise_cons]
    exact ⟨fun x hx => h₂.1 x hx, h₂.2⟩
  · intro a ha b hb
    rcases List.mem_cons.mp hb with rfl | hb'
    · exact h₃ a ha (p, c) (List.mem_cons_self _ _)
    · exact h₃ a ha b (List.mem_cons_of_mem _ hb')

/-- On a key-distinct directory, replacing one file's content (same path)
replaces exactly that content slot in the sorted list. -/
theorem sortFiles_content_replace {α : Type} (pre suf : List (List Nat × α))
    (p : List Nat) (c c' : α)
    (hnd : (((pre ++ (p, c) :: suf)).map Prod.fst).Nodup) :
    ∃ s₁ s₂ : List (List Nat × α),
      sortFiles (pre ++ (p, c) :: suf) = s₁ ++ (p, c) :: s₂ ∧
      sortFiles (pre ++ (p, c') :: suf) = s₁ ++ (p, c') :: s₂ := by
  have hperm : sortFiles (pre ++ (p, c) :: suf) |>.Perm (pre ++ (p, c) :: suf) :=
    List.perm_insertionSort kvLe _
  have hmem : (p, c) ∈ sortFiles (pre ++ (p, c) :: suf) :=
    hperm.symm.subset (by simp)
  obtain ⟨s₁, s₂, hsplit⟩ := List.append_of_mem hmem
  refine ⟨s₁, s₂, hsplit, ?_⟩
  have hsorted : (sortFiles (pre ++ (p, c) :: suf)).Sorted kvLe :=
    List.sorted_insertionSort kvLe _
  have hsorted' : (s₁ ++ (p, c') :: s₂).Sorted kvLe :=
    pairwise_kvLe_replace (hsplit ▸ hsorted)
  have hmid : (s₁ ++ s₂).Perm (pre ++ suf) := by
    have h₄ : (s₁ ++ (p, c) :: s₂).Perm (pre ++ (p, c) :: suf) := hsplit ▸ hperm
    exact (List.perm_middle.symm.trans (h₄.trans List.perm_middle)).cons_inv
  have hperm' : (s₁ ++ (p, c') :: s₂).Perm (pre ++ (p, c') :: suf) :=
    List.perm_middle.trans ((hmid.cons (p, c')).trans List.perm_middle.symm)
  have hndX : ((pre ++ (p, c') :: suf).map Prod.fst).Nodup := by
    have : (pre ++ (p, c') :: suf).map Prod.fst = (pre ++ (p, c) :: suf).map Prod.fst := by
      simp
    rw [this]; exact hnd
  have hnd₁ : ((sortFiles (pre ++ (p, c') :: suf)).map Prod.fst).Nodup := by
    have := (List.perm_insertionSort kvLe (pre ++ (p, c') :: suf)).map Prod.fst
    exact this.nodup_iff.mpr hndX
  exact sorted_perm_nodupKeys_eq
    ((List.perm_insertionSort kvLe _).trans hperm'.symm)
    (List.sorted_insertionSort kvLe _) hsorted' hnd₁

/-- A SHA-256 collision: two distinct preimages with the same digest. -/
def sha256Collision (a b : List Nat) : Prop := a ≠ b ∧ sha256 a = sha256 b

/-- C9: `hashDirectory` on an empty tree succeeds and returns the SHA-256
digest of zero bytes (the well-known empty-input digest `e3b0c442…b855`). -/
theorem hashDirectory_empty :
    hashDirectory [] = sha256 [] ∧
    hashDirectory [] =
      [0xe3, 0xb0, 0xc4, 0x42, 0x98, 0xfc, 0x1c, 0x14, 0x9a, 0xfb, 0xf4, 0xc8,
       0x99, 0x6f, 0xb9, 0x24, 0x27, 0xae, 0x41, 0xe4, 0x64, 0x9b, 0x93, 0x4c,
       0xa4, 0x95, 0x99, 0x1b, 0x78, 0x52, 0xb8, 0x55] :=
  ⟨rfl, by decide⟩

/-! ## Manifest documents and `sortObjectKeysRecursively`

A parsed JSON document (signing.ts lines 248-263).  Object fields are kept
in JavaScript insertion order; JavaScript objects never hold two properties
with the same key.  Keys and string values are code-unit sequences. -/

inductive JValue where
  | null
  | bool (b : Bool)
  | num (n : Int)
  | str (s : List Nat)
  | arr (items : List JValue)
  | obj (fields : List (List Nat × JValue))

/-- The `__proto__` key: `result[key] = v` with this key invokes the
inherited prototype accessor and never creates an own property, so the
`reduce` of `sortObjectKeysRecursively` silently drops such a field (while
`JSON.parse` can create it as an own property of the input). -/
def protoKey : List Nat := codes "__proto__"

mutual
/-- `sortObjectKeysRecursively`: scalars unchanged; arrays mapped
elementwise; objects are rebuilt by assigning the keys of
`Object.keys(obj).sort()` in sorted order, with each value canonicalized
(the `reduce`'s `obj[key]` recursion).  The field list models the rebuilt
object's own properties in creation (assignment) order — key-sorted, minus
any dropped `__proto__` key; `Object.keys`/`JSON.stringify` observe the
enumeration order `jsEnumFields` of that list (array-index-like keys
numerically first).  The source sorts the keys before recursing into the
values; since the stable sort compares keys only, the result equals
recursing first and then sorting, which is how termination is exhibited
here. -/
def sortObjectKeysRecursively : JValue → JValue
  | .null => .null
  | .bool b => .bool b
  | .num n => .num n
  | .str s => .str s
  | .arr items => .arr (sortKeysList items)
  | .obj fields => .obj ((List.insertionSort kvLe (sortKeysFields fields)).filter
      (fun kv => kv.1 != protoKey))

def sortKeysList : List JValue → List JValue
  | [] => []
  | v :: vs => sortObjectKeysRecursively v :: sortKeysList vs

def sortKeysFields : List (List Nat × JValue) → List (List Nat × JValue)
  | [] => []
  | (k, v) :: kvs => (k, sortObjectKeysRecursively v) :: sortKeysFields kvs
end

/-- JavaScript property assignment `obj[k] = v` for an ordinary key:
overwrite in place if the key exists, append otherwise.  The only keys the
pipeline assigns are `public_key` and `signature`; an assignment to
`__proto__` (which would create no own property) never occurs there. -/
def setField (k : List Nat) (v : JValue) : List (List Nat × JValue) → List (List Nat × JValue)
  | [] => [(k, v)]
  | (k', v') :: rest => if k' = k then (k, v) :: rest else (k', v') :: setField k v rest

/-- JavaScript property read `obj[k]`. -/
def lookupField (k : List Nat) : List (List Nat × JValue) → Option JValue
  | [] => none
  | (k', v) :: rest => if k' = k then some v else lookupField k rest

/-- Adjacent-pair boolean check that a field list is sorted by key. -/
def sortedKeysB : List (List Nat × JValue) → Bool
  | [] => true
  | [_] => true
  | a :: b :: t => pathLeb a.1 b.1 && sortedKeysB (b :: t)

mutual
/-- Recursive check that every object at every nesting level (including
objects inside arrays) has its keys sorted. -/
def keysSortedRec : JValue → Bool
  | .null => true
  | .bool _ => true
  | .num _ => true
  | .str _ => true
  | .arr items => keysSortedList items
  | .obj fields => sortedKeysB fields && keysSortedFields fields

def keysSortedList : List JValue → Bool
  | [] => true
  | v :: vs => keysSortedRec v && keysSortedList vs

def keysSortedFields : List (List Nat × JValue) → Bool
  | [] => true
  | kv :: kvs => keysSortedRec kv.2 && keysSortedFields kvs
end

/-- Induction over documents with membership hypotheses for arrays and objects. -/
def JValue.recMem (motive : JValue → Prop)
    (hnull : motive .null) (hbool : ∀ b, motive (.bool b))
    (hnum : ∀ n, motive (.num n)) (hstr : ∀ s, motive (.str s))
    (harr : ∀ items, (∀ x ∈ items, motive x) → motive (.arr items))
    (hobj : ∀ fields, (∀ kv ∈ fields, motive kv.2) → motive (.obj fields)) :
    ∀ v, motive v
  | .null => hnull
  | .bool b => hbool b
  | .num n => hnum n
  | .str s => hstr s
  | .arr items => harr items (fun x hx =>
      JValue.recMem motive hnull hbool hnum hstr harr hobj x)
  | .obj fields => hobj fields (fun kv hkv =>
      JValue.recMem motive hnull hbool hnum hstr harr hobj kv.2)
termination_by v => sizeOf v
decreasing_by
  · have h := List.sizeOf_lt_of_mem hx
    simp only [JValue.arr.sizeOf_spec]
    omega
  · have h := List.sizeOf_lt_of_mem hkv
    have h2 : sizeOf kv.2 < sizeOf kv := by
      obtain ⟨k, v⟩ := kv
      simp only [Prod.mk.sizeOf_spec]
      omega
    simp only [JValue.obj.sizeOf_spec]
    omega

/-- "Equal up to key ordering": congruence closure of permuting the fields
of (duplicate-free) objects, at any nesting depth. -/
inductive KeyOrderEquiv : JValue → JValue → Prop where
  | refl (v : JValue) : KeyOrderEquiv v v
  | trans {a b c : JValue} : KeyOrderEquiv a b → KeyOrderEquiv b c → KeyOrderEquiv a c
  | permFields {fs gs : List (List Nat × JValue)} : fs.Perm gs →
      (fs.map Prod.fst).Nodup → KeyOrderEquiv (.obj fs) (.obj gs)
  | arrCons {a b : JValue} {as bs : List JValue} : KeyOrderEquiv a b →
      KeyOrderEquiv (.arr as) (.arr bs) → KeyOrderEquiv (.arr (a :: as)) (.arr (b :: bs))
  | objCons {k : List Nat} {v w : JValue} {fs gs : List (List Nat × JValue)} :
      KeyOrderEquiv v w → KeyOrderEquiv (.obj fs) (.obj gs) →
      KeyOrderEquiv (.obj ((k, v) :: fs)) (.obj ((k, w) :: gs))

theorem sortKeys_arr (items : List JValue) :
    sortObjectKeysRecursively (.arr items) = .arr (sortKeysList items) := rfl

theorem sortKeys_obj (fields : List (List Nat × JValue)) :
    sortObjectKeysRecursively (.obj fields) =
      .obj ((List.insertionSort kvLe (sortKeysFields fields)).filter
        (fun kv => kv.1 != protoKey)) := rfl

theorem sortKeysFields_eq_map (l : List (List Nat × JValue)) :
    sortKeysFields l = l.map (fun kv => (kv.1, sortObjectKeysRecursively kv.2)) := by
  induction l with
  | nil => rfl
  | cons kv kvs ih => obtain ⟨k, v⟩ := kv; simp [sortKeysFields, ih]

theorem sortKeysList_eq_map (l : List JValue) :
    sortKeysList l = l.map sortObjectKeysRecursively := by
  induction l with
  | nil => rfl
  | cons v vs ih => simp [sortKeysList, ih]

theorem sortKeysFields_map_fst (l : List (List Nat × JValue)) :
    (sortKeysFields l).map Prod.fst = l.map Prod.fst := by
  simp [sortKeysFields_eq_map]

theorem mem_sortKeysFields {kv : List Nat × JValue} {l : List (List Nat × JValue)}
    (h : kv ∈ sortKeysFields l) :
    ∃ kv₀, kv₀ ∈ l ∧ kv = (kv₀.1, sortObjectKeysRecursively kv₀.2) := by
  rw [sortKeysFields_eq_map] at h
  obtain ⟨kv₀, h₀, rfl⟩ := List.mem_map.mp h
  exact ⟨kv₀, h₀, rfl⟩

theorem mem_sortKeysList {v : JValue} {l : List JValue} (h : v ∈ sortKeysList l) :
    ∃ v₀, v₀ ∈ l ∧ v = sortObjectKeysRecursively v₀ := by
  rw [sortKeysList_eq_map] at h
  obtain ⟨v₀, h₀, rfl⟩ := List.mem_map.mp h
  exact ⟨v₀, h₀, rfl⟩

theorem sortKeysFields_eq_self {l : List (List Nat × JValue)}
    (h : ∀ kv ∈ l, sortObjectKeysRecursively kv.2 = kv.2) : sortKeysFields l = l := by
  induction l with
  | nil => rfl
  | cons kv kvs ih =>
    obtain ⟨k, v⟩ := kv
    simp only [sortKeysFields]
    rw [h (k, v) (List.mem_cons_self _ _), ih (fun kv hkv => h kv (List.mem_cons_of_mem _ hkv))]

theorem sortKeysList_eq_self {l : List JValue}
    (h : ∀ v ∈ l, sortObjectKeysRecursively v = v) : sortKeysList l = l := by
  induction l with
  | nil => rfl
  | cons v vs ih =>
    simp only [sortKeysList]
    rw [h v (List.mem_cons_self _ _), ih (fun v hv => h v (List.mem_cons_of_mem _ hv))]

/-- C6: canonicalization is idempotent:
`canonicalize(canonicalize(x)) == canonicalize(x)` for every document `x`,
including arbitrarily nested documents with arrays of objects in any
key-insertion order. -/
theorem sortObjectKeysRecursively_idempotent :
    ∀ v, sortObjectKeysRecursively (sortObjectKeysRecursively v) =
      sortObjectKeysRecursively v := by
  intro v
  induction v using JValue.recMem with
  | hnull => rfl
  | hbool b => rfl
  | hnum n => rfl
  | hstr s => rfl
  | harr items ih =>
    rw [sortKeys_arr, sortKeys_arr]
    congr 1
    apply sortKeysList_eq_self
    intro v hv
    obtain ⟨v₀, hv₀, rfl⟩ := mem_sortKeysList hv
    exact ih v₀ hv₀
  | hobj fields ih =>
    rw [sortKeys_obj, sortKeys_obj]
    congr 1
    have hmemB : ∀ kv ∈ (List.insertionSort kvLe (sortKeysFields fields)).filter
        (fun kv => kv.1 != protoKey), sortObjectKeysRecursively kv.2 = kv.2 := by
      intro kv hkv
      have hkv' : kv ∈ sortKeysFields fields :=
        (List.perm_insertionSort kvLe _).subset (List.mem_of_mem_filter hkv)
      obtain ⟨kv₀, hkv₀, rfl⟩ := mem_sortKeysFields hkv'
      exact ih kv₀ hkv₀
    have hsortedB : ((List.insertionSort kvLe (sortKeysFields fields)).filter
        (fun kv => kv.1 != protoKey)).Sorted kvLe :=
      List.Pairwise.sublist (List.filter_sublist _) (List.sorted_insertionSort kvLe _)
    rw [sortKeysFields_eq_self hmemB, hsortedB.insertionSort_eq,
        List.filter_eq_self.mpr (fun kv hkv => (List.mem_filter.mp hkv).2)]

theorem sortedKeysB_of_sorted :
    ∀ {l : List (List Nat × JValue)}, l.Sorted kvLe → sortedKeysB l = true
  | [], _ => rfl
  | [_], _ => rfl
  | _ :: b :: _, h => by
    rw [List.sorted_cons] at h
    simp only [sortedKeysB, Bool.and_eq_true]
    exact ⟨h.1 b (List.mem_cons_self _ _), sortedKeysB_of_sorted h.2⟩

theorem keysSortedFields_iff {l : List (List Nat × JValue)} :
    keysSortedFields l = true ↔ ∀ kv ∈ l, keysSortedRec kv.2 = true := by
  induction l with
  | nil => simp [keysSortedFields]
  | cons kv kvs ih => simp [keysSortedFields, ih]

theorem keysSortedList_iff {l : List JValue} :
    keysSortedList l = true ↔ ∀ v ∈ l, keysSortedRec v = true := by
  induction l with
  | nil => simp [keysSortedList]
  | cons v vs ih => simp [keysSortedList, ih]

/-- The canonicalized form of every document has its own properties in
sorted creation order at every level. -/
theorem keysSortedRec_sortKeys :
    ∀ v, keysSortedRec (sortObjectKeysRecursively v) = true := by
  intro v
  induction v using JValue.recMem with
  | hnull => rfl
  | hbool b => rfl
  | hnum n => rfl
  | hstr s => rfl
  | harr items ih =>
    rw [sortKeys_arr]
    show keysSortedList (sortKeysList items) = true
    rw [keysSortedList_iff]
    intro v hv
    obtain ⟨v₀, hv₀, rfl⟩ := mem_sortKeysList hv
    exact ih v₀ hv₀
  | hobj fields ih =>
    rw [sortKeys_obj]
    show (sortedKeysB ((List.insertionSort kvLe (sortKeysFields fields)).filter
        (fun kv => kv.1 != protoKey)) &&
      keysSortedFields ((List.insertionSort kvLe (sortKeysFields fields)).filter
        (fun kv => kv.1 != protoKey))) = true
    rw [Bool.and_eq_true]
    constructor
    · exact sortedKeysB_of_sorted
        (List.Pairwise.sublist (List.filter_sublist _) (List.sorted_insertionSort kvLe _))
    · rw [keysSortedFields_iff]
      intro kv hkv
      have hkv' : kv ∈ sortKeysFields fields :=
        (List.perm_insertionSort kvLe _).subset (List.mem_of_mem_filter hkv)
      obtain ⟨kv₀, hkv₀, rfl⟩ := mem_sortKeysFields hkv'
      exact ih kv₀ hkv₀

theorem orderedInsert_eq_cons {α : Type} (x : List Nat × α) {l : List (List Nat × α)}
    (h : ∀ b ∈ l, kvLe x b) : List.orderedInsert kvLe x l = x :: l := by
  cases l with
  | nil => rfl
  | cons b t =>
    have hb := h b (List.mem_cons_self _ _)
    simp [List.orderedInsert, hb]

/-- Filtering commutes with ordered insertion into a sorted list. -/
theorem filter_orderedInsert {α : Type} (p : List Nat × α → Bool) (x : List Nat × α) :
    ∀ {l : List (List Nat × α)}, l.Sorted kvLe →
      (List.orderedInsert kvLe x l).filter p =
        if p x = true then List.orderedInsert kvLe x (l.filter p) else l.filter p := by
  intro l
  induction l with
  | nil =>
    intro _
    by_cases hp : p x = true <;> simp [List.orderedInsert, hp]
  | cons a t ih =>
    intro hs
    have hst : t.Sorted kvLe := (List.sorted_cons.mp hs).2
    by_cases hr : kvLe x a
    · rw [show List.orderedInsert kvLe x (a :: t) = x :: a :: t by
        simp [List.orderedInsert, hr]]
      by_cases hp : p x = true
      · have hall : ∀ b ∈ (a :: t).filter p, kvLe x b := by
          intro b hb
          rcases List.mem_cons.mp (List.mem_of_mem_filter hb) with rfl | hbt
          · exact hr
          · exact pathLeb_trans hr ((List.sorted_cons.mp hs).1 b hbt)
        rw [if_pos hp, orderedInsert_eq_cons x hall]
        simp [List.filter_cons, hp]
      · rw [if_neg hp]
        simp [List.filter_cons, hp]
    · rw [show List.orderedInsert kvLe x (a :: t) = a :: List.orderedInsert kvLe x t by
        simp [List.orderedInsert, hr]]
      by_cases hpa : p a = true
      · by_cases hp : p x = true
        · rw [if_pos hp]
          rw [show (a :: t).filter p = a :: t.filter p by simp [List.filter_cons, hpa]]
          rw [show List.orderedInsert kvLe x (a :: t.filter p) =
              a :: List.orderedInsert kvLe x (t.filter p) by
            simp [List.orderedInsert, hr]]
          rw [show (a :: List.orderedInsert kvLe x t).filter p =
              a :: (List.orderedInsert kvLe x t).filter p by simp [List.filter_cons, hpa]]
          rw [ih hst, if_pos hp]
        · rw [if_neg hp]
          rw [show (a :: List.orderedInsert kvLe x t).filter p =
              a :: (List.orderedInsert kvLe x t).filter p by simp [List.filter_cons, hpa]]
          rw [ih hst, if_neg hp]
          simp [List.filter_cons, hpa]
      · rw [show (a :: List.orderedInsert kvLe x t).filter p =
            (List.orderedInsert kvLe x t).filter p by simp [List.filter_cons, hpa]]
        rw [show (a :: t).filter p = t.filter p by simp [List.filter_cons, hpa]]
        exact ih hst

/-- Documents equal up to key ordering canonicalize to the same value. -/
theorem keyOrderEquiv_sortKeys {v w : JValue} (h : KeyOrderEquiv v w) :
    sortObjectKeysRecursively v = sortObjectKeysRecursively w := by
  induction h with
  | refl v => rfl
  | trans _ _ ih1 ih2 => rw [ih1, ih2]
  | @permFields fs gs hp hnd =>
    rw [sortKeys_obj, sortKeys_obj]
    congr 1
    have hEq : List.insertionSort kvLe (sortKeysFields fs) =
        List.insertionSort kvLe (sortKeysFields gs) := by
      apply sorted_perm_nodupKeys_eq
      · refine (List.perm_insertionSort kvLe _).trans (.trans ?_
          (List.perm_insertionSort kvLe _).symm)
        rw [sortKeysFields_eq_map, sortKeysFields_eq_map]
        exact hp.map _
      · exact List.sorted_insertionSort kvLe _
      · exact List.sorted_insertionSort kvLe _
      · have hperm : ((List.insertionSort kvLe (sortKeysFields fs)).map Prod.fst).Perm
            ((sortKeysFields fs).map Prod.fst) :=
          (List.perm_insertionSort kvLe (sortKeysFields fs)).map Prod.fst
        rw [sortKeysFields_map_fst] at hperm
        exact hperm.nodup_iff.mpr hnd
    rw [hEq]
  | arrCons _ _ ih1 ih2 =>
    rw [sortKeys_arr, sortKeys_arr] at ih2 ⊢
    rw [JValue.arr.injEq] at ih2
    simp only [sortKeysList]
    rw [JValue.arr.injEq, ih1, ih2]
  | objCons _ _ ihv ihfs =>
    rw [sortKeys_obj, sortKeys_obj] at ihfs ⊢
    rw [JValue.obj.injEq] at ihfs
    rw [JValue.obj.injEq]
    simp only [sortKeysFields, List.insertionSort]
    rw [filter_orderedInsert _ _ (List.sorted_insertionSort kvLe _),
        filter_orderedInsert _ _ (List.sorted_insertionSort kvLe _), ihv, ihfs]

mutual
/-- No object at any nesting level of the document holds a `__proto__` key. -/
def noProtoRec : JValue → Bool
  | .null => true
  | .bool _ => true
  | .num _ => true
  | .str _ => true
  | .arr items => noProtoList items
  | .obj fields => fields.all (fun kv => kv.1 != protoKey) && noProtoFields fields

def noProtoList : List JValue → Bool
  | [] => true
  | v :: vs => noProtoRec v && noProtoList vs

def noProtoFields : List (List Nat × JValue) → Bool
  | [] => true
  | kv :: kvs => noProtoRec kv.2 && noProtoFields kvs
end

theorem noProtoFields_iff {l : List (List Nat × JValue)} :
    noProtoFields l = true ↔ ∀ kv ∈ l, noProtoRec kv.2 = true := by
  induction l with
  | nil => simp [noProtoFields]
  | cons kv kvs ih => simp [noProtoFields, ih]

theorem noProtoList_iff {l : List JValue} :
    noProtoList l = true ↔ ∀ v ∈ l, noProtoRec v = true := by
  induction l with
  | nil => simp [noProtoList]
  | cons v vs ih => simp [noProtoList, ih]

/-- The rebuilding assignment drops `__proto__`: no object of the canonical
output holds that key. -/
theorem noProtoRec_sortKeys :
    ∀ v, noProtoRec (sortObjectKeysRecursively v) = true := by
  intro v
  induction v using JValue.recMem with
  | hnull => rfl
  | hbool b => rfl
  | hnum n => rfl
  | hstr s => rfl
  | harr items ih =>
    rw [sortKeys_arr]
    show noProtoList (sortKeysList items) = true
    rw [noProtoList_iff]
    intro v hv
    obtain ⟨v₀, hv₀, rfl⟩ := mem_sortKeysList hv
    exact ih v₀ hv₀
  | hobj fields ih =>
    rw [sortKeys_obj]
    show (((List.insertionSort kvLe (sortKeysFields fields)).filter
        (fun kv => kv.1 != protoKey)).all (fun kv => kv.1 != protoKey) &&
      noProtoFields ((List.insertionSort kvLe (sortKeysFields fields)).filter
        (fun kv => kv.1 != protoKey))) = true
    rw [Bool.and_eq_true]
    constructor
    · rw [List.all_eq_true]
      intro kv hkv
      exact (List.mem_filter.mp hkv).2
    · rw [noProtoFields_iff]
      intro kv hkv
      have hkv' : kv ∈ sortKeysFields fields :=
        (List.perm_insertionSort kvLe _).subset (List.mem_of_mem_filter hkv)
      obtain ⟨kv₀, hkv₀, rfl⟩ := mem_sortKeysFields hkv'
      exact ih kv₀ hkv₀

/-- Numeric value of an all-digit key. -/
def keyNum (k : List Nat) : Nat := k.foldl (fun acc c => acc * 10 + (c - 48)) 0

/-- An array-index-like key: the canonical decimal string of an integer
below `2^32 - 1` ("0", or digits without a leading zero).  JavaScript
enumerates such own properties first, in ascending numeric order, whatever
their creation order. -/
def isArrayIndex (k : List Nat) : Bool :=
  (k == [48] ||
    (match k with
     | c :: rest => decide (49 ≤ c ∧ c ≤ 57) && rest.all (fun d => decide (48 ≤ d ∧ d ≤ 57))
     | [] => false)) &&
  decide (keyNum k ≤ 4294967294)

/-- Ordering of entries by the numeric value of their keys. -/
def numKeyLe {α : Type} (a b : List Nat × α) : Prop := keyNum a.1 ≤ keyNum b.1

instance numKeyLe.instDecRel {α : Type} : DecidableRel (@numKeyLe α) :=
  fun a b => inferInstanceAs (Decidable (keyNum a.1 ≤ keyNum b.1))

/-- JavaScript own-property enumeration order (OrdinaryOwnPropertyKeys),
which `Object.keys` and `JSON.stringify` observe: array-index-like keys in
ascending numeric order first, then the remaining keys in creation order. -/
def jsEnumFields {α : Type} (fields : List (List Nat × α)) : List (List Nat × α) :=
  List.insertionSort numKeyLe (fields.filter (fun kv => isArrayIndex kv.1))
  ++ fields.filter (fun kv => !isArrayIndex kv.1)

/-- C7 counterexample: the canonical form of `{"2": 2, "10": 1}` has
creation order `["10", "2"]` (code-unit lexicographic), but JavaScript
enumerates and serializes it as `["2", "10"]` — ascending numeric order —
although `"10"` precedes `"2"` lexicographically; and canonicalizing
`{"__proto__": 5}` drops the field entirely instead of preserving its
scalar value.  So the canonical output's keys are not lexicographically
sorted at every level, and scalar values are not always preserved, as the
claim stated. -/
theorem sortObjectKeysRecursively_numeric_keys_counterexample :
    sortObjectKeysRecursively (.obj [(codes "2", .num 2), (codes "10", .num 1)]) =
      .obj [(codes "10", .num 1), (codes "2", .num 2)] ∧
    jsEnumFields [((codes "10" : List Nat), JValue.num 1), (codes "2", .num 2)] =
      [(codes "2", .num 2), (codes "10", .num 1)] ∧
    pathLeb (codes "10") (codes "2") = true ∧
    (codes "10" : List Nat) ≠ codes "2" ∧
    sortObjectKeysRecursively (.obj [(protoKey, .num 5)]) = .obj [] := by
  refine ⟨rfl, rfl, by decide, by decide, rfl⟩

/-- C7 (amended): canonicalization assigns keys in code-unit lexicographic
order, so every object of the canonical output holds its own properties in
lexicographically sorted creation order — the order its non-array-index
keys enumerate and serialize in, while array-index-like keys enumerate
first in ascending numeric order (`jsEnumFields`); the rebuilding
assignment silently drops any `__proto__` key; all other scalar values and
array element order are preserved; and two documents equal up to key
ordering canonicalize to the same value. -/
theorem sortObjectKeysRecursively_canonical :
    (∀ v, keysSortedRec (sortObjectKeysRecursively v) = true) ∧
    (∀ v, noProtoRec (sortObjectKeysRecursively v) = true) ∧
    (sortObjectKeysRecursively .null = .null) ∧
    (∀ b, sortObjectKeysRecursively (.bool b) = .bool b) ∧
    (∀ n, sortObjectKeysRecursively (.num n) = .num n) ∧
    (∀ s, sortObjectKeysRecursively (.str s) = .str s) ∧
    (∀ items, sortObjectKeysRecursively (.arr items) =
      .arr (items.map sortObjectKeysRecursively)) ∧
    (∀ v w, KeyOrderEquiv v w →
      sortObjectKeysRecursively v = sortObjectKeysRecursively w) :=
  ⟨keysSortedRec_sortKeys, noProtoRec_sortKeys, rfl, fun _ => rfl, fun _ => rfl,
   fun _ => rfl,
   fun items => by rw [sortKeys_arr, sortKeysList_eq_map],
   fun _ _ h => keyOrderEquiv_sortKeys h⟩

/-- Witness for C7 on a concrete pair of documents that differ only in
key-insertion order. -/
theorem sortObjectKeysRecursively_canonical_witness :
    KeyOrderEquiv (.obj [(codes "b", .null), (codes "a", .num 1)])
        (.obj [(codes "a", .num 1), (codes "b", .null)]) ∧
    sortObjectKeysRecursively (.obj [(codes "b", .null), (codes "a", .num 1)]) =
      sortObjectKeysRecursively (.obj [(codes "a", .num 1), (codes "b", .null)]) := by
  have hequiv : KeyOrderEquiv (.obj [(codes "b", .null), (codes "a", .num 1)])
      (.obj [(codes "a", .num 1), (codes "b", .null)]) :=
    KeyOrderEquiv.permFields (List.Perm.swap _ _ _) (by decide)
  exact ⟨hequiv,
    sortObjectKeysRecursively_canonical.2.2.2.2.2.2.2 _ _ hequiv⟩

/-- C4: for a fixed set of (path, content) pairs, `hashDirectory` returns
the same digest regardless of the filesystem enumeration order; the digest
is a function only of the path/content set, with the file list sorted by
lexicographic code-unit order of paths before contents are concatenated and
digested. -/
theorem hashDirectory_deterministic (l₁ l₂ : List (List Nat × List Nat))
    (hperm : l₁.Perm l₂) (hnd : (l₁.map Prod.fst).Nodup) :
    hashDirectory l₁ = hashDirectory l₂ ∧ sortFiles l₁ = sortFiles l₂ ∧
    (sortFiles l₁).Sorted kvLe := by
  have hsort : sortFiles l₁ = sortFiles l₂ := by
    apply sorted_perm_nodupKeys_eq
    · exact (List.perm_insertionSort kvLe l₁).trans
        (hperm.trans (List.perm_insertionSort kvLe l₂).symm)
    · exact List.sorted_insertionSort kvLe l₁
    · exact List.sorted_insertionSort kvLe l₂
    · exact ((List.perm_insertionSort kvLe l₁).map Prod.fst).nodup_iff.mpr hnd
  refine ⟨?_, hsort, List.sorted_insertionSort kvLe l₁⟩
  unfold hashDirectory hashInput
  rw [hsort]

/-- Witness for C4 on a two-file tree enumerated in both orders. -/
theorem hashDirectory_deterministic_witness :
    ([(codes "b", [1]), (codes "a", [2])] : List (List Nat × List Nat)).Perm
        [(codes "a", [2]), (codes "b", [1])] ∧
    hashDirectory [(codes "b", [1]), (codes "a", [2])] =
      hashDirectory [(codes "a", [2]), (codes "b", [1])] := by
  have hp : ([(codes "b", [1]), (codes "a", [2])] : List (List Nat × List Nat)).Perm
      [(codes "a", [2]), (codes "b", [1])] := List.Perm.swap _ _ _
  exact ⟨hp, (hashDirectory_deterministic _ _ hp (by decide)).1⟩

/-- C2 counterexample: renaming the tree's only file from `a` to `b` while
keeping its content is a rename that does **not** change the digest —
`hashDirectory` concatenates contents only, so the SHA-256 input is
identical and the digests are equal with certainty. -/
theorem hashDirectory_rename_same_digest :
    hashDirectory [(codes "a", [120])] = hashDirectory [(codes "b", [120])] ∧
    hashInput [(codes "a", [120])] = hashInput [(codes "b", [120])] ∧
    ([(codes "a", [120])] : List (List Nat × List Nat)) ≠ [(codes "b", [120])] := by
  refine ⟨?_, by decide, by decide⟩
  show sha256 (hashInput _) = sha256 (hashInput _)
  have h : hashInput [(codes "a", [120])] = hashInput [(codes "b", [120])] := by decide
  rw [h]

/-- C2 (amended): changing one file's content (same path, same length,
e.g. flipping a single byte) changes the byte sequence fed to SHA-256, and
hence changes the digest unless the two distinct inputs are a SHA-256
collision; renaming a file (or adding/removing an empty file) need not
change the digest, since only contents in sorted-path order are hashed. -/
theorem hashDirectory_tamper (pre suf : List (List Nat × List Nat))
    (p c c' : List Nat) (hlen : c.length = c'.length) (hne : c ≠ c')
    (hnd : ((pre ++ (p, c) :: suf).map Prod.fst).Nodup) :
    hashInput (pre ++ (p, c) :: suf) ≠ hashInput (pre ++ (p, c') :: suf) ∧
    (hashDirectory (pre ++ (p, c) :: suf) = hashDirectory (pre ++ (p, c') :: suf) →
      sha256Collision (hashInput (pre ++ (p, c) :: suf))
        (hashInput (pre ++ (p, c') :: suf))) := by
  obtain ⟨s₁, s₂, h1, h2⟩ := sortFiles_content_replace pre suf p c c' hnd
  have hneq : hashInput (pre ++ (p, c) :: suf) ≠ hashInput (pre ++ (p, c') :: suf) := by
    intro heq
    unfold hashInput at heq
    rw [h1, h2] at heq
    simp only [List.map_append, List.map_cons, List.flatten_append, List.flatten_cons] at heq
    have heq2 := List.append_cancel_left heq
    exact hne (List.append_inj heq2 hlen).1
  exact ⟨hneq, fun hdig => ⟨hneq, hdig⟩⟩

/-- Witness for C2's amended statement: flipping the byte `120` to `121` in
the one-file tree changes the SHA-256 input. -/
theorem hashDirectory_tamper_witness :
    ([120] : List Nat).length = [121].length ∧ ([120] : List Nat) ≠ [121] ∧
    hashInput [(codes "a", [120])] ≠ hashInput [(codes "a", [121])] := by
  refine ⟨by decide, by decide, ?_⟩
  exact (hashDirectory_tamper [] [] (codes "a") [120] [121]
    (by decide) (by decide) (by decide)).1

/-! ## KeyManager: `generateKeypair` / `derivePublicKey`

`generateKeypair` (lines 15-41) exports the public key raw and the private
key as PKCS#8, both hex-encoded (`Buffer.toString("hex")`).
`derivePublicKey` (lines 279-302) imports the PKCS#8 bytes, strips the
private scalar via a JWK round-trip, and re-exports the raw public key. -/

/-- Lower-case hex digit code unit for a value below 16. -/
def hexDigit (n : Nat) : Nat := if n < 10 then 48 + n else 87 + n

/-- Value of a lower-case hex digit code unit. -/
def hexValue (d : Nat) : Option Nat :=
  if 48 ≤ d ∧ d ≤ 57 then some (d - 48)
  else if 97 ≤ d ∧ d ≤ 102 then some (d - 87)
  else none

/-- `Buffer.toString("hex")`: two lower-case hex digits per byte. -/
def hexEncode : List Nat → List Nat
  | [] => []
  | b :: bs => hexDigit (b / 16) :: hexDigit (b % 16) :: hexEncode bs

/-- `Buffer.from(hex, "hex")`: decode a hex string back to bytes. -/
def hexDecode : List Nat → Option (List Nat)
  | [] => some []
  | [_] => none
  | d₁ :: d₂ :: ds =>
      match hexValue d₁, hexValue d₂, hexDecode ds with
      | some h, some l, some rest => some ((16 * h + l) :: rest)
      | _, _, _ => none

theorem hexValue_hexDigit : ∀ n < 16, hexValue (hexDigit n) = some n := by decide

theorem hexDecode_hexEncode : ∀ {bs : List Nat}, (∀ b ∈ bs, b < 256) →
    hexDecode (hexEncode bs) = some bs := by
  intro bs
  induction bs with
  | nil => intro _; rfl
  | cons b bs ih =>
    intro h
    have hb : b < 256 := h b (List.mem_cons_self _ _)
    have h1 := hexValue_hexDigit (b / 16) (by omega)
    have h2 := hexValue_hexDigit (b % 16) (by omega)
    have h3 := ih (fun x hx => h x (List.mem_cons_of_mem _ hx))
    simp only [hexEncode, hexDecode, h1, h2, h3]
    congr 2
    omega

/-- The fixed 16-byte PKCS#8 header of an Ed25519 private key
(`302e020100300506032b657004220420`, DER for the `1.3.101.112` key type
wrapping a 32-byte seed). -/
def pkcs8Header : List Nat :=
  [0x30, 0x2e, 0x02, 0x01, 0x00, 0x30, 0x05, 0x06, 0x03, 0x2b, 0x65, 0x70,
   0x04, 0x22, 0x04, 0x20]

/-- Modelled from the spec: the WebCrypto Ed25519 primitive used by
`generateKeypair`/`derivePublicKey` is outside this repository.  Per spec
§3/§4.1/§9, an Ed25519 public key is a pure (deterministic) function of the
32-byte private seed; the model carries that function.  The JWK
export/strip-`d`/reimport dance of `derivePublicKey` computes exactly this
function (the JWK `x` component is the raw public key). -/
structure Ed25519 where
  pubFromSeed : List Nat → List Nat

/-- `generateKeypair`: freshly drawn seed ↦ (hex raw public key, hex PKCS#8
private key). -/
def generateKeypair (E : Ed25519) (seed : List Nat) : List Nat × List Nat :=
  (hexEncode (E.pubFromSeed seed), hexEncode (pkcs8Header ++ seed))

/-- `derivePublicKey` precomposed with `Buffer.from(hex)`: decode the hex
private-key material, validate/strip the PKCS#8 framing, and derive the raw
public key, hex-encoded like `signExtension`/`packageExtension` use it.
Malformed material (bad hex, wrong header, wrong length) fails. -/
def derivePublicKey (E : Ed25519) (privateKeyHex : List Nat) : Option (List Nat) :=
  match hexDecode privateKeyHex with
  | none => none
  | some bytes =>
      if bytes.take 16 = pkcs8Header ∧ (bytes.drop 16).length = 32 then
        some (hexEncode (E.pubFromSeed (bytes.drop 16)))
      else none

/-- C8: deriving the public key from the private key material returned by
`generateKeypair` reproduces exactly the keypair's public key. -/
theorem derivePublicKey_generateKeypair (E : Ed25519) (seed : List Nat)
    (hlen : seed.length = 32) (hbytes : ∀ b ∈ seed, b < 256) :
    derivePublicKey E (generateKeypair E seed).2 = some (generateKeypair E seed).1 := by
  unfold generateKeypair derivePublicKey
  have hall : ∀ b ∈ pkcs8Header ++ seed, b < 256 := by
    intro b hb
    rcases List.mem_append.mp hb with h | h
    · revert h
      have : ∀ x ∈ pkcs8Header, x < 256 := by decide
      exact this b
    · exact hbytes b h
  rw [hexDecode_hexEncode hall]
  have h16 : (16 : Nat) = pkcs8Header.length := rfl
  rw [h16]
  show (if (pkcs8Header ++ seed).take pkcs8Header.length = pkcs8Header ∧
      ((pkcs8Header ++ seed).drop pkcs8Header.length).length = 32 then
      some (hexEncode (E.pubFromSeed ((pkcs8Header ++ seed).drop pkcs8Header.length)))
    else none) = some (hexEncode (E.pubFromSeed seed))
  rw [List.take_left, List.drop_left]
  simp [hlen]

/-- Witness for C8 at the all-zero seed with the identity curve function. -/
theorem derivePublicKey_generateKeypair_witness :
    (List.replicate 32 0).length = 32 ∧
    derivePublicKey ⟨fun s => s⟩ (generateKeypair ⟨fun s => s⟩ (List.replicate 32 0)).2 =
      some (generateKeypair ⟨fun s => s⟩ (List.replicate 32 0)).1 :=
  ⟨by decide, derivePublicKey_generateKeypair _ _ (by decide) (by decide)⟩

theorem lookupField_setField_self (k : List Nat) (v : JValue)
    (fs : List (List Nat × JValue)) : lookupField k (setField k v fs) = some v := by
  induction fs with
  | nil => simp [setField, lookupField]
  | cons kv rest ih =>
    obtain ⟨k', v'⟩ := kv
    by_cases h : k' = k
    · subst h; simp [setField, lookupField]
    · simp [setField, lookupField, h, ih]

theorem lookupField_setField_other {k k' : List Nat} (hne : k' ≠ k) (v : JValue)
    (fs : List (List Nat × JValue)) :
    lookupField k (setField k' v fs) = lookupField k fs := by
  induction fs with
  | nil => simp [setField, lookupField, hne]
  | cons kv rest ih =>
    obtain ⟨k₀, v₀⟩ := kv
    by_cases h : k₀ = k'
    · subst h; simp [setField, lookupField, hne]
    · by_cases h₂ : k₀ = k
      · subst h₂; simp [setField, lookupField, h]
      · simp [setField, lookupField, h, h₂, ih]

theorem setField_setField (k : List Nat) (v w : JValue)
    (fs : List (List Nat × JValue)) :
    setField k v (setField k w fs) = setField k v fs := by
  induction fs with
  | nil => simp [setField]
  | cons kv rest ih =>
    obtain ⟨k₀, v₀⟩ := kv
    by_cases h : k₀ = k
    · subst h; simp [setField]
    · simp [setField, h, ih]

theorem setField_middle_perm {k k' : List Nat} (hkk : k ≠ k') (v w s : JValue) :
    ∀ fs : List (List Nat × JValue),
      (setField k v (setField k' w (setField k s fs))).Perm
        (setField k v (setField k' w fs))
  | [] => by
    have h1 : setField k v (setField k' w (setField k s [])) = [(k, v), (k', w)] := by
      simp [setField, hkk, Ne.symm hkk]
    have h2 : setField k v (setField k' w []) = [(k', w), (k, v)] := by
      simp [setField, hkk, Ne.symm hkk]
    rw [h1, h2]
    exact List.Perm.swap _ _ _
  | (k₀, v₀) :: rest => by
    by_cases h : k₀ = k
    · subst h
      have h1 : setField k₀ v (setField k' w (setField k₀ s ((k₀, v₀) :: rest))) =
          (k₀, v) :: setField k' w rest := by
        simp [setField, hkk, Ne.symm hkk]
      have h2 : setField k₀ v (setField k' w ((k₀, v₀) :: rest)) =
          (k₀, v) :: setField k' w rest := by
        simp [setField, hkk, Ne.symm hkk]
      rw [h1, h2]
    · by_cases h' : k₀ = k'
      · subst h'
        have h1 : setField k v (setField k₀ w (setField k s ((k₀, v₀) :: rest))) =
            (k₀, w) :: setField k v (setField k s rest) := by
          simp [setField, h, Ne.symm h]
        have h2 : setField k v (setField k₀ w ((k₀, v₀) :: rest)) =
            (k₀, w) :: setField k v rest := by
          simp [setField, h, Ne.symm h]
        rw [h1, h2, setField_setField]
      · have h1 : setField k v (setField k' w (setField k s ((k₀, v₀) :: rest))) =
            (k₀, v₀) :: setField k v (setField k' w (setField k s rest)) := by
          simp [setField, h, h']
        have h2 : setField k v (setField k' w ((k₀, v₀) :: rest)) =
            (k₀, v₀) :: setField k v (setField k' w rest) := by
          simp [setField, h, h']
        rw [h1, h2]
        exact (setField_middle_perm hkk v w s rest).cons _

theorem setField_map_fst (k : List Nat) (v : JValue) (fs : List (List Nat × JValue)) :
    (setField k v fs).map Prod.fst =
      if k ∈ fs.map Prod.fst then fs.map Prod.fst else fs.map Prod.fst ++ [k] := by
  induction fs with
  | nil => simp [setField]
  | cons kv rest ih =>
    obtain ⟨k₀, v₀⟩ := kv
    by_cases h : k₀ = k
    · subst h; simp [setField]
    · by_cases hmem : k ∈ rest.map Prod.fst
      · simp [setField, h, ih, hmem, Ne.symm h]
      · simp [setField, h, ih, hmem, Ne.symm h]

theorem setField_nodupKeys {fs : List (List Nat × JValue)} (k : List Nat) (v : JValue)
    (h : (fs.map Prod.fst).Nodup) : ((setField k v fs).map Prod.fst).Nodup := by
  rw [setField_map_fst]
  by_cases hmem : k ∈ fs.map Prod.fst
  · simpa [hmem] using h
  · simp [hmem, List.nodup_append, h]

/-! ## `packageExtension` (signing.ts lines 106-240)

The packaging run is embedded as a function of an environment describing
the pre-run filesystem and of an injected failure point (`PkgFail`)
selecting the exit path actually taken.  Event-handler semantics of the
final `Promise` (lines 201-239):
`output.on("close")` restores the original manifest and resolves;
`output.on("error")` restores and rejects; `archive.on("error")` rejects
**without** restoring. -/

/-- Exit paths of a `packageExtension` run: success, or a failure injected
at key import (line 120), staging (lines 143-172), hashing (line 175),
signing (line 182), the archiver error event (line 218), or the output
stream error event (line 212). -/
inductive PkgFail where
  | ok
  | keyImport
  | staging
  | hashing
  | signing
  | archiveError
  | outputError
deriving DecidableEq

/-- Modelled from the spec: runtime primitives used by `packageExtension`
that live outside this repository — `JSON.stringify(·, null, 2)` as an
uninterpreted rendering of a document to file bytes, WebCrypto Ed25519
signing as an uninterpreted function of the private key and the message,
and `derivePublicKey`'s hex output as a function of the private key hex. -/
structure Platform where
  render : JValue → List Nat
  sign : List Nat → List Nat → List Nat
  pubFromPriv : List Nat → List Nat

def manifestName : List Nat := codes "manifest.json"
def publicKeyName : List Nat := codes "public.key"
def privateKeyName : List Nat := codes "private.key"
def configName : List Nat := codes "haextension.config.json"
def sigKey : List Nat := codes "signature"
def pubKeyField : List Nat := codes "public_key"
def slash : List Nat := [47]

/-- Pre-run state of a `packageExtension` invocation: the manifest file's
raw bytes and parsed fields, the private key hex, the build-output tree
(`extensionPath`, relative path ↦ content), the `haextension` directory
entries (name ↦ content, possibly including `private.key`), the optional
`haextension.config.json`, and the injected exit path. -/
structure PkgEnv where
  manifestBytes : List Nat
  manifest : List (List Nat × JValue)
  privateKeyHex : List Nat
  extFiles : List (List Nat × List Nat)
  extDirFiles : List (List Nat × List Nat)
  configContent : Option (List Nat)
  extensionDir : List Nat
  tempDir : List Nat
  fail : PkgFail

/-- `fsSync.existsSync` + `fs.copyFile`: content of a named entry. -/
def lookupContent (k : List Nat) : List (List Nat × List Nat) → Option (List Nat)
  | [] => none
  | (k', c) :: rest => if k' = k then some c else lookupContent k rest

/-- Lines 134-138: `manifest.public_key = publicKeyHex; manifest.signature = "";`. -/
def placeholderFields (P : Platform) (env : PkgEnv) : List (List Nat × JValue) :=
  setField sigKey (.str [])
    (setField pubKeyField (.str (P.pubFromPriv env.privateKeyHex)) env.manifest)

/-- Line 137: `const canonicalManifestForHashing = this.sortObjectKeysRecursively(manifest)`. -/
def canonicalManifestForHashing (P : Platform) (env : PkgEnv) : JValue :=
  sortObjectKeysRecursively (.obj (placeholderFields P env))

/-- Lines 147-172: the temp staging tree that gets hashed — the build
output copied to the temp root, `public.key` (only) copied from the
extension dir if present, the canonicalized placeholder manifest written as
`manifest.json`, and the local config copied if present. -/
def stagedTree (P : Platform) (env : PkgEnv) : List (List Nat × List Nat) :=
  env.extFiles.map (fun e => (env.tempDir ++ slash ++ e.1, e.2))
  ++ (match lookupContent publicKeyName env.extDirFiles with
      | some c => [(env.tempDir ++ slash ++ env.extensionDir ++ slash ++ publicKeyName, c)]
      | none => [])
  ++ [(env.tempDir ++ slash ++ env.extensionDir ++ slash ++ manifestName,
       P.render (canonicalManifestForHashing P env))]
  ++ (match env.configContent with
      | some c => [(env.tempDir ++ slash ++ configName, c)]
      | none => [])

/-- Line 175: `contentHash = await this.hashDirectory(tempDir)`. -/
def contentHashOf (P : Platform) (env : PkgEnv) : List Nat :=
  hashDirectory (stagedTree P env)

/-- Lines 182-187: hex signature over the content hash. -/
def signatureHexOf (P : Platform) (env : PkgEnv) : List Nat :=
  hexEncode (P.sign env.privateKeyHex (contentHashOf P env))

/-- Lines 190-191: `manifest.signature = signatureHex` on the object whose
`public_key` was set and whose `signature` held the placeholder, then
`JSON.stringify(manifest, null, 2)` written to the manifest path. -/
def finalManifestBytes (P : Platform) (env : PkgEnv) : List Nat :=
  P.render (.obj (setField sigKey (.str (signatureHexOf P env)) (placeholderFields P env)))

/-- `archive.glob("**/*", { cwd, ignore: ["private.key"], dot: false })`:
a path component starting with `.` after a `/`. -/
def dotAfterSlash : List Nat → Bool
  | [] => false
  | 47 :: 46 :: _ => true
  | _ :: rest => dotAfterSlash rest

/-- A relative path with a dotfile component (excluded by `dot: false`). -/
def hasDotComponent : List Nat → Bool
  | 46 :: _ => true
  | n => dotAfterSlash n

/-- Lines 226-230: the extension-dir entries added to the archive —
everything except `private.key` and dotfiles, under the `extensionDir`
prefix; `manifest.json`'s content at archive time is the finalized
manifest written at line 191. -/
def archiveGlobEntries (env : PkgEnv) (finalBytes : List Nat) :
    List (List Nat × List Nat) :=
  (env.extDirFiles.filter
      (fun e => (e.1 != privateKeyName) && !hasDotComponent e.1)).map
    (fun e => (env.extensionDir ++ slash ++ e.1,
      if e.1 = manifestName then finalBytes else e.2))

/-- Lines 222-236: full archive listing — `archive.directory(extensionPath,
false)` (build output at the archive root), the extension-dir glob, and
`haextension.config.json` if present. -/
def archiveEntries (env : PkgEnv) (finalBytes : List Nat) :
    List (List Nat × List Nat) :=
  env.extFiles
  ++ archiveGlobEntries env finalBytes
  ++ (match env.configContent with
      | some c => [(configName, c)]
      | none => [])

/-- Observable outcome of a run: the settled promise, the bytes at the
manifest's canonical path when the promise settles, the chronological
writes to that path during the run, whether the temp staging directory is
gone, the computed content hash, and the archive contents on success. -/
structure PkgResult where
  outcome : Except PkgFail Unit
  manifestOnDisk : List Nat
  manifestWrites : List (List Nat)
  tempDirRemoved : Bool
  contentHash : Option (List Nat)
  archived : Option (List (List Nat × List Nat))

/-- The `packageExtension` run, following the source's control flow: read
manifest; import key (fail ⇒ nothing written, no temp dir); stage + hash
inside `try`/`finally` (fail ⇒ temp dir removed by `finally`, manifest
untouched); sign (fail ⇒ manifest untouched); write the finalized manifest
to the canonical path; then the archive promise — on `close` restore the
original manifest and resolve, on output error restore and reject, on
archiver error reject without restoring. -/
def runPackage (P : Platform) (env : PkgEnv) : PkgResult :=
  if env.fail = .keyImport then
    ⟨.error .keyImport, env.manifestBytes, [], true, none, none⟩
  else if env.fail = .staging then
    ⟨.error .staging, env.manifestBytes, [], true, none, none⟩
  else if env.fail = .hashing then
    ⟨.error .hashing, env.manifestBytes, [], true, none, none⟩
  else if env.fail = .signing then
    ⟨.error .signing, env.manifestBytes, [], true, some (contentHashOf P env), none⟩
  else if env.fail = .archiveError then
    ⟨.error .archiveError, finalManifestBytes P env, [finalManifestBytes P env], true,
     some (contentHashOf P env), none⟩
  else if env.fail = .outputError then
    ⟨.error .outputError, env.manifestBytes,
     [finalManifestBytes P env, env.manifestBytes], true,
     some (contentHashOf P env), none⟩
  else
    ⟨.ok (), env.manifestBytes, [finalManifestBytes P env, env.manifestBytes], true,
     some (contentHashOf P env), some (archiveEntries env (finalManifestBytes P env))⟩

def trivialPlatform : Platform := ⟨fun _ => [1], fun _ _ => [], fun _ => []⟩

def envArchiveFail : PkgEnv :=
  ⟨[0], [], [], [], [], none, codes "haextension", codes "tmp", .archiveError⟩

def envOutputFail : PkgEnv :=
  ⟨[0], [], [], [], [], none, codes "haextension", codes "tmp", .outputError⟩

def envOkSmall : PkgEnv :=
  ⟨[0], [], [], [], [], none, codes "haextension", codes "tmp", .ok⟩

/-- C1 is refuted on the code: a concrete run taking the archiver-error
exit path rejects while the manifest file still holds the finalized
(real-signature) bytes, not its pre-run bytes.  The restoring handlers are
attached only to the output stream's `close` and `error` events (signing.ts
lines 202-217); `archive.on("error", reject)` (line 218) rejects without
restoring, after the finalized manifest was already written (line 191). -/
theorem packageExtension_archiveError_leaves_manifest :
    (runPackage trivialPlatform envArchiveFail).outcome = .error .archiveError ∧
    (runPackage trivialPlatform envArchiveFail).manifestOnDisk ≠
      envArchiveFail.manifestBytes ∧
    (runPackage trivialPlatform envArchiveFail).manifestOnDisk =
      finalManifestBytes trivialPlatform envArchiveFail ∧
    (runPackage trivialPlatform envOkSmall).manifestOnDisk =
      envOkSmall.manifestBytes ∧
    (runPackage trivialPlatform envOutputFail).manifestOnDisk =
      envOutputFail.manifestBytes := by
  refine ⟨rfl, ?_, rfl, rfl, rfl⟩
  decide

/-- C10: on every failure at key import, staging, hashing, or signing,
`packageExtension` has performed no write to the manifest's canonical
path — the on-disk manifest equals its pre-run bytes, the write trace is
empty, and the temporary staging directory is gone; the first write to the
canonical path can only happen after the signature step succeeds. -/
theorem packageExtension_no_write_before_signing (P : Platform) (env : PkgEnv)
    (h : env.fail = .keyImport ∨ env.fail = .staging ∨ env.fail = .hashing ∨
      env.fail = .signing) :
    (runPackage P env).manifestOnDisk = env.manifestBytes ∧
    (runPackage P env).manifestWrites = [] ∧
    (runPackage P env).tempDirRemoved = true := by
  rcases h with h | h | h | h <;> simp [runPackage, h]

def envSigningFail : PkgEnv :=
  ⟨[7], [], [], [], [], none, codes "haextension", codes "tmp", .signing⟩

/-- Witness for C10 at a concrete signing-failure run. -/
theorem packageExtension_no_write_before_signing_witness :
    envSigningFail.fail = .signing ∧
    ((runPackage trivialPlatform envSigningFail).manifestOnDisk =
        envSigningFail.manifestBytes ∧
      (runPackage trivialPlatform envSigningFail).manifestWrites = [] ∧
      (runPackage trivialPlatform envSigningFail).tempDirRemoved = true) :=
  ⟨rfl, packageExtension_no_write_before_signing trivialPlatform envSigningFail
    (.inr (.inr (.inr rfl)))⟩

/-- `env` with its parsed manifest replaced. -/
def envWithManifest (env : PkgEnv) (m : List (List Nat × JValue)) : PkgEnv :=
  ⟨env.manifestBytes, m, env.privateKeyHex, env.extFiles, env.extDirFiles,
   env.configContent, env.extensionDir, env.tempDir, env.fail⟩

theorem envWithManifest_fail (env : PkgEnv) (m : List (List Nat × JValue)) :
    (envWithManifest env m).fail = env.fail := rfl

/-- C5: the content hash that gets signed is computed over the staged
bundle whose manifest is the canonicalized placeholder form — `signature`
the empty string, `public_key` the derived key — never over a manifest
holding the real signature: the staged tree carries the canonical
placeholder render as its `manifest.json`; the computed hash does not
depend on the signing function at all, nor on any signature value already
present in the input manifest; and the real signature (a function of the
content hash) reaches the canonical path only as part of the finalized
manifest, after hashing. -/
theorem packageExtension_hashes_placeholder (P : Platform) (env : PkgEnv)
    (hnd : (env.manifest.map Prod.fst).Nodup) :
    ((runPackage P env).contentHash = none ∨
      (runPackage P env).contentHash = some (hashDirectory (stagedTree P env))) ∧
    (env.tempDir ++ slash ++ env.extensionDir ++ slash ++ manifestName,
      P.render (canonicalManifestForHashing P env)) ∈ stagedTree P env ∧
    lookupField sigKey (placeholderFields P env) = some (.str []) ∧
    lookupField pubKeyField (placeholderFields P env) =
      some (.str (P.pubFromPriv env.privateKeyHex)) ∧
    (∀ sg : List Nat → List Nat → List Nat,
      (runPackage ⟨P.render, sg, P.pubFromPriv⟩ env).contentHash =
        (runPackage P env).contentHash) ∧
    (∀ s : List Nat,
      (runPackage P (envWithManifest env
          (setField sigKey (.str s) env.manifest))).contentHash =
        (runPackage P env).contentHash) ∧
    ((runPackage P env).manifestWrites = [] ∨
      (runPackage P env).manifestWrites.head? =
        some (finalManifestBytes P env)) := by
  refine ⟨?_, ?_, ?_, ?_, ?_, ?_, ?_⟩
  · cases hf : env.fail <;> simp [runPackage, hf, contentHashOf]
  · simp [stagedTree]
  · exact lookupField_setField_self _ _ _
  · show lookupField pubKeyField (setField sigKey (.str [])
      (setField pubKeyField (.str (P.pubFromPriv env.privateKeyHex)) env.manifest)) = _
    rw [lookupField_setField_other (by decide), lookupField_setField_self]
  · intro sg
    cases hf : env.fail <;> simp [runPackage, hf] <;> rfl
  · intro s
    have hplace : (placeholderFields P (envWithManifest env
        (setField sigKey (.str s) env.manifest))).Perm (placeholderFields P env) := by
      show (setField sigKey (.str []) (setField pubKeyField
          (.str (P.pubFromPriv env.privateKeyHex))
          (setField sigKey (.str s) env.manifest))).Perm
        (setField sigKey (.str []) (setField pubKeyField
          (.str (P.pubFromPriv env.privateKeyHex)) env.manifest))
      exact setField_middle_perm (by decide) _ _ _ env.manifest
    have hndp : ((placeholderFields P (envWithManifest env
        (setField sigKey (.str s) env.manifest))).map Prod.fst).Nodup := by
      apply setField_nodupKeys
      apply setField_nodupKeys
      apply setField_nodupKeys
      exact hnd
    have hcanon : canonicalManifestForHashing P (envWithManifest env
        (setField sigKey (.str s) env.manifest)) = canonicalManifestForHashing P env := by
      unfold canonicalManifestForHashing
      exact keyOrderEquiv_sortKeys (KeyOrderEquiv.permFields hplace hndp)
    have hstaged : stagedTree P (envWithManifest env
        (setField sigKey (.str s) env.manifest)) = stagedTree P env := by
      unfold stagedTree
      rw [hcanon]
      rfl
    have hch : contentHashOf P (envWithManifest env
        (setField sigKey (.str s) env.manifest)) = contentHashOf P env := by
      unfold contentHashOf
      rw [hstaged]
    cases hf : env.fail <;> simp [runPackage, envWithManifest_fail, hf, hch]
  · cases hf : env.fail <;> simp [runPackage, hf]

def envOkExample : PkgEnv :=
  ⟨[0], [(codes "name", .str (codes "demo"))], [], [(codes "index.html", [104, 105])],
   [(manifestName, [0]), (publicKeyName, [5]), (privateKeyName, [97, 97])], none,
   codes "haextension", codes "tmp", .ok⟩

/-- Witness for C5 on a concrete run. -/
theorem packageExtension_hashes_placeholder_witness :
    (envOkExample.manifest.map Prod.fst).Nodup ∧
    lookupField sigKey (placeholderFields trivialPlatform envOkExample) =
      some (.str []) := by
  refine ⟨by decide, ?_⟩
  exact (packageExtension_hashes_placeholder trivialPlatform envOkExample
    (by decide)).2.2.1

/-- Byte-sequence prefix test. -/
def leadsWith : List Nat → List Nat → Bool
  | [], _ => true
  | _ :: _, [] => false
  | a :: as, b :: bs => (a == b) && leadsWith as bs

/-- Full-text scan: does `needle` occur contiguously inside the byte
sequence? -/
def containsSeq (needle : List Nat) : List Nat → Bool
  | [] => leadsWith needle []
  | b :: bs => leadsWith needle (b :: bs) || containsSeq needle bs

/-- C3: secret exclusion on a successful run.  The archive listing never
contains the private key's canonical path `extensionDir/private.key`: the
extension-dir glob drops `private.key` unconditionally (even when the file
is present in `extDirFiles`), and the build output and config never carry
that path (hypotheses `hext`, and `haextension.config.json` has no slash).
No archived content contains the private key material, given that the input
files outside the key file and the rendered finalized manifest are free of
it (the pipeline itself writes no key bytes into any archived file). -/
theorem packageExtension_excludes_private_key (P : Platform) (env : PkgEnv)
    (hsucc : env.fail = .ok)
    (hext : ∀ e ∈ env.extFiles, e.1 ≠ env.extensionDir ++ slash ++ privateKeyName)
    (hextContent : ∀ e ∈ env.extFiles, containsSeq env.privateKeyHex e.2 = false)
    (hdirContent : ∀ e ∈ env.extDirFiles, e.1 ≠ privateKeyName →
      containsSeq env.privateKeyHex e.2 = false)
    (hcfg : ∀ c, env.configContent = some c → containsSeq env.privateKeyHex c = false)
    (hfinal : containsSeq env.privateKeyHex (finalManifestBytes P env) = false) :
    (runPackage P env).archived =
      some (archiveEntries env (finalManifestBytes P env)) ∧
    env.extensionDir ++ slash ++ privateKeyName ∉
      (archiveEntries env (finalManifestBytes P env)).map Prod.fst ∧
    ∀ e ∈ archiveEntries env (finalManifestBytes P env),
      containsSeq env.privateKeyHex e.2 = false := by
  refine ⟨by simp [runPackage, hsucc], ?_, ?_⟩
  · intro hmem
    unfold archiveEntries at hmem
    simp only [List.map_append, List.mem_append] at hmem
    rcases hmem with (hmem | hmem) | hmem
    · obtain ⟨e, he, heq⟩ := List.mem_map.mp hmem
      exact hext e he heq
    · unfold archiveGlobEntries at hmem
      rw [List.map_map] at hmem
      obtain ⟨e, he, heq⟩ := List.mem_map.mp hmem
      have hefilter := List.of_mem_filter he
      simp only [Function.comp, Bool.and_eq_true, bne_iff_ne, ne_eq,
        Bool.not_eq_true'] at hefilter heq
      have : e.1 = privateKeyName := List.append_cancel_left heq
      exact hefilter.1 this
    · cases hc : env.configContent with
      | none => simp [hc] at hmem
      | some c =>
        simp only [hc, List.map_cons, List.map_nil, List.mem_singleton] at hmem
        have h47 : (47 : Nat) ∈ env.extensionDir ++ slash ++ privateKeyName :=
          List.mem_append.mpr (.inl (List.mem_append.mpr (.inr (by decide))))
        rw [hmem] at h47
        exact absurd h47 (by decide)
  · intro e he
    unfold archiveEntries at he
    simp only [List.mem_append] at he
    rcases he with (he | he) | he
    · exact hextContent e he
    · unfold archiveGlobEntries at he
      obtain ⟨e₀, he₀, heq⟩ := List.mem_map.mp he
      have hefilter := List.of_mem_filter he₀
      simp only [Bool.and_eq_true, bne_iff_ne, ne_eq, Bool.not_eq_true'] at hefilter
      have hne : e₀.1 ≠ privateKeyName := hefilter.1
      have he₀' : e₀ ∈ env.extDirFiles := List.mem_of_mem_filter he₀
      rw [← heq]
      by_cases hm : e₀.1 = manifestName
      · simpa [hm] using hfinal
      · simpa [hm] using hdirContent e₀ he₀' hne
    · cases hc : env.configContent with
      | none => simp [hc] at he
      | some c =>
        simp only [hc, List.mem_singleton] at he
        rw [he]
        exact hcfg c hc

def envSecretExample : PkgEnv :=
  ⟨[0], [], [97, 97], [(codes "index.html", [104, 105])],
   [(manifestName, [0]), (publicKeyName, [5]), (privateKeyName, [97, 97])], none,
   codes "haextension", codes "tmp", .ok⟩

/-- Witness for C3 on a run whose extension directory holds a private key
file whose content equals the private key material. -/
theorem packageExtension_excludes_private_key_witness :
    envSecretExample.fail = .ok ∧
    (privateKeyName, ([97, 97] : List Nat)) ∈ envSecretExample.extDirFiles ∧
    envSecretExample.extensionDir ++ slash ++ privateKeyName ∉
      (archiveEntries envSecretExample
        (finalManifestBytes trivialPlatform envSecretExample)).map Prod.fst := by
  refine ⟨rfl, by decide, ?_⟩
  exact (packageExtension_excludes_private_key trivialPlatform envSecretExample rfl
    (by decide) (by decide) (by decide) (fun c hc => Option.noConfusion hc)
    (by decide)).2.1
